import Mathlib

/-!
Verification of the Gemini-Search response-assembly pipeline.

The definitions below are a shallow embedding of the server code
(`server/routes.ts` and `server/env.ts`, given as `src/unnamed/part_000`):
credential resolution (`getGoogleAI`), the raw-text-to-markdown formatter
(`formatResponseToMarkdown`), grounding-metadata source extraction (the
inline `sourceMap` loop of `registerRoutes`), and the two HTTP handlers
(`GET /api/search`, `POST /api/follow-up`).

JavaScript conventions that the embedding reproduces explicitly:
* a `string | undefined` value is `Option String`; JS truthiness of a string
  (`!s`, `s || t`) treats the empty string like `undefined`;
* `Map` keeps insertion order; `set` on an existing key updates in place;
* regular-expression passes are modelled as left-to-right scanners over
  `List Char`; the JS class `\s` matches the listed whitespace code points,
  including `\n`, so character runs may span line breaks;
* the external pieces (the Gemini SDK call and the `marked` renderer) are
  parameters: the provider is a function argument and the final
  markdown-to-HTML rendering step is a function argument `render`.
-/

namespace GeminiSearch

/-! ## Data model: grounding metadata (routes.ts lines 117-143) -/

/-- `interface WebSource { uri: string; title: string }`.  The runtime values
arrive from JSON through `as any`, so either field may be absent; the code
checks them with `chunk.web?.uri && chunk.web?.title`. -/
structure WebSource where
  uri : Option String
  title : Option String
deriving DecidableEq

/-- `interface GroundingChunk { web?: WebSource }`. -/
structure GroundingChunk where
  web : Option WebSource
deriving DecidableEq

/-- `interface TextSegment { startIndex: number; endIndex: number; text: string }`. -/
structure TextSegment where
  startIndex : Int
  endIndex : Int
  text : String
deriving DecidableEq

/-- `interface GroundingSupport { segment; groundingChunkIndices; confidenceScores }`.
Confidence scores are carried but never read by the extraction code; they are
kept as integers scaled from the wire format since no arithmetic touches them. -/
structure GroundingSupport where
  segment : TextSegment
  groundingChunkIndices : List Nat
  confidenceScores : List Int
deriving DecidableEq

/-- `interface GroundingMetadata`.  The code reads the two list fields through
`metadata.groundingChunks || []` / `metadata.groundingSupports || []`, so they
are optional here and default to `[]`.  (`searchEntryPoint : any` is unused by
every code path and is omitted.) -/
structure GroundingMetadata where
  groundingChunks : Option (List GroundingChunk)
  groundingSupports : Option (List GroundingSupport)
  webSearchQueries : Option (List String)
deriving DecidableEq

/-- The derived `{ title, url, snippet }` record stored in `sourceMap`. -/
structure Source where
  title : String
  url : String
  snippet : String
deriving DecidableEq

/-! ## JS string truthiness -/

/-- JS truthiness of a `string | undefined` value: `undefined` and `""` are
falsy. -/
def truthyStr : Option String → Bool
  | none => false
  | some s => s ≠ ""

/-- JS `a || b` on `string | undefined` values. -/
def jsOr (a b : Option String) : Option String :=
  if truthyStr a then a else b

/-- JS `m || d` where `m : string` (used for `error.message || "..."`). -/
def orDefault (m d : String) : String :=
  if m = "" then d else m

/-! ## Source extraction (routes.ts lines 195-228, repeated at 298-332)

The code walks `chunks` with `forEach`, keeping `sourceMap : Map<string, ...>`;
for an unseen URL it computes the snippet by filtering `supports` on
`support.groundingChunkIndices.includes(index)`, mapping to
`support.segment.text` and joining with `" "`; finally
`Array.from(sourceMap.values())` returns the insertion-ordered list. -/

/-- The guard `chunk.web?.uri && chunk.web?.title` followed by the reads
`chunk.web.uri` / `chunk.web.title`: yields the pair exactly when both fields
are present and truthy (non-empty). -/
def chunkUrlTitle (c : GroundingChunk) : Option (String × String) :=
  match c.web with
  | none => none
  | some w =>
    match w.uri, w.title with
    | some u, some t => if u ≠ "" ∧ t ≠ "" then some (u, t) else none
    | _, _ => none

/-- `supports.filter(s => s.groundingChunkIndices.includes(index))
      .map(s => s.segment.text).join(" ")`
(`snippets || ""` is the identity here, because an empty join is `""`). -/
def snippetFor (supports : List GroundingSupport) (i : Nat) : String :=
  String.intercalate " "
    ((supports.filter (fun s => i ∈ s.groundingChunkIndices)).map
      (fun s => s.segment.text))

/-- The `chunks.forEach` loop: `i` is the running chunk index, `seen` the key
set of `sourceMap`, and the returned list is the insertion-ordered values. -/
def extractGo (supports : List GroundingSupport) :
    List GroundingChunk → Nat → List String → List Source
  | [], _, _ => []
  | c :: cs, i, seen =>
    match chunkUrlTitle c with
    | some (url, title) =>
      if url ∈ seen then extractGo supports cs (i + 1) seen
      else
        { title := title, url := url, snippet := snippetFor supports i } ::
          extractGo supports cs (i + 1) (url :: seen)
    | none => extractGo supports cs (i + 1) seen

/-- Source extraction for one response: `if (metadata) { ... }` with the
`|| []` defaults; when the metadata is absent the `sourceMap` stays empty. -/
def extractSources (md : Option GroundingMetadata) : List Source :=
  match md with
  | none => []
  | some m => extractGo (m.groundingSupports.getD []) (m.groundingChunks.getD []) 0 []

/-! ## Spec-side extraction (for the refinement claim C3)

Modelled from the words of spec section 4.5: iterate chunks in order with
their indices, keep those exposing both URI and title (JS-truthy, i.e.
present and non-empty), keep the first occurrence of each URL, and attach the
space-joined texts of the supports citing that chunk index. -/

/-- Spec words: chunks paired with their position, skipping every chunk
missing a URI or a title. -/
def eligibleEntries (chunks : List GroundingChunk) : List (Nat × String × String) :=
  chunks.enum.filterMap (fun p => (chunkUrlTitle p.2).map (fun q => (p.1, q.1, q.2)))

/-- Spec words: keep only the first entry for each distinct URL, preserving
first-seen order. -/
def dedupFirst : List (Nat × String × String) → List String → List (Nat × String × String)
  | [], _ => []
  | e :: es, seen =>
    if e.2.1 ∈ seen then dedupFirst es seen
    else e :: dedupFirst es (e.2.1 :: seen)

/-- Spec words: the snippet of a chunk is the space-joined concatenation, in
support order, of the segment texts of exactly those supports whose
cited-chunk-index set includes the chunk's index (empty when none do). -/
def snippetSpec (supports : List GroundingSupport) (i : Nat) : String :=
  String.intercalate " "
    ((supports.filter (fun s => i ∈ s.groundingChunkIndices)).map
      (fun s => s.segment.text))

/-- Spec words for `extract(groundingMetadata)` as a whole. -/
def extractSpec (md : Option GroundingMetadata) : List Source :=
  match md with
  | none => []
  | some m =>
    (dedupFirst (eligibleEntries (m.groundingChunks.getD [])) []).map
      (fun e => { title := e.2.2, url := e.2.1, snippet := snippetSpec (m.groundingSupports.getD []) e.1 })

/-- The title of the first chunk (in chunk order) that passes the
URI-and-title guard and carries the given URL. -/
def firstChunkTitle (chunks : List GroundingChunk) (url : String) : Option String :=
  ((chunks.filterMap chunkUrlTitle).find? (fun p => p.1 == url)).map Prod.snd

/-- `eligibleEntries` generalised to a starting index (used to relate the
spec-side extraction to the running index of the `forEach` loop). -/
def eligibleFrom (i : Nat) (chunks : List GroundingChunk) : List (Nat × String × String) :=
  (List.enumFrom i chunks).filterMap
    (fun p => (chunkUrlTitle p.2).map (fun q => (p.1, q.1, q.2)))

/-! ## Credential resolution (routes.ts lines 37-45, `getGoogleAI`) -/

/-- The message of the error thrown when no key is available. -/
def noKeyMessage : String :=
  "No API key provided. Please provide an API key via query parameter or set it in the .env file"

/-- `getGoogleAI(apiKey?)`: `const key = apiKey || process.env.GOOGLE_API_KEY;
if (!key) throw ...; return new GoogleGenerativeAI(key)`.  The environment
variable is the explicit argument `envKey`; the result is the key the client
is constructed with. -/
def getGoogleAI (apiKey envKey : Option String) : Except String String :=
  match jsOr apiKey envKey with
  | none => .error noKeyMessage
  | some k => if k = "" then .error noKeyMessage else .ok k

/-! ## The formatter (routes.ts lines 68-115, `formatResponseToMarkdown`)

The function is a pipeline of JS regex replaces over the raw text, a
paragraph-normalisation step, and a final call to the external `marked`
renderer (modelled as the function argument `render`):

1. `text.replace(/\r\n/g, "\n")` — `normNewlines`;
2. `replace(/^([A-Za-z][A-Za-z\s]+):(\s*)/gm, "## $1$2")` — `pass1`;
3. `replace(/(?<=\n|^)([A-Za-z][A-Za-z\s]+):(?!\d)/gm, "### $1")` — `pass2`;
4. `replace(/^[•●○]\s*/gm, "* ")` — `bulletPass`;
5. split on `"\n\n"`, `.filter(Boolean)`, keep blocks starting with
   `#`/`*`/`-`, append `"\n"` to the others, join with `"\n\n"` —
   `paragraphPass`.

Regex semantics reproduced exactly: a global replace scans left to right,
trying the pattern at each position and continuing after each match; `^` with
the `m` flag (and the lookbehind `(?<=\n|^)`) match at position 0 or right
after a `\n` of the original string; the class `\s` contains `\n`, so the
greedy run `[A-Za-z\s]+` may cross line breaks; since `:` is not in the
class, greedy backtracking is vacuous — the run is the maximal one and the
match succeeds iff the character right after it is `:`.  The scanners below
carry a flag meaning "the current position is a line start" (position 0, or
the previously consumed character of the input was `\n`).  They recurse with
explicit fuel — one unit per emitted step, so fuel = input length always
suffices — to stay structurally recursive. -/

/-- The regex class `[A-Za-z]` (`Char.isAlpha` is exactly ASCII letters). -/
def isLetterChar (c : Char) : Bool := c.isAlpha

/-- The JS regex class `\s`: tab, LF, VT, FF, CR, space, NBSP, Ogham space,
the U+2000–U+200A range, LS, PS, NNBSP, MMSP, ideographic space and BOM. -/
def isJsSpace (c : Char) : Bool :=
  c == ' ' || c == '\t' || c == '\n' || c == '\x0b' || c == '\x0c' || c == '\r' ||
  c == '\u00A0' || c == '\u1680' || (decide ('\u2000' ≤ c) && decide (c ≤ '\u200A')) ||
  c == '\u2028' || c == '\u2029' || c == '\u202F' || c == '\u205F' ||
  c == '\u3000' || c == '\uFEFF'

/-- The regex class `[A-Za-z\s]` used for the header-label runs. -/
def isClassChar (c : Char) : Bool := isLetterChar c || isJsSpace c

/-- The bullet glyph class `[•●○]`. -/
def isGlyph (c : Char) : Bool := c == '•' || c == '●' || c == '○'

/-- `text.replace(/\r\n/g, "\n")`: left-to-right, non-overlapping. -/
def normNewlines : List Char → List Char
  | '\r' :: '\n' :: rest => '\n' :: normNewlines rest
  | c :: rest => c :: normNewlines rest
  | [] => []

/-- Attempt the pattern `([A-Za-z][A-Za-z\s]+):(\s*)` at the current
position.  On success returns `($1, $2, rest-after-match)`. -/
def tryMatch1 (s : List Char) : Option (List Char × List Char × List Char) :=
  match s with
  | [] => none
  | c :: rest =>
    if isLetterChar c then
      let run := rest.takeWhile isClassChar
      if run.isEmpty then none
      else
        match rest.dropWhile isClassChar with
        | ':' :: rest2 => some (c :: run, rest2.takeWhile isJsSpace, rest2.dropWhile isJsSpace)
        | _ => none
    else none

/-- Attempt the pattern `([A-Za-z][A-Za-z\s]+):(?!\d)` at the current
position.  On success returns `($1, rest-after-the-colon)`. -/
def tryMatch2 (s : List Char) : Option (List Char × List Char) :=
  match s with
  | [] => none
  | c :: rest =>
    if isLetterChar c then
      let run := rest.takeWhile isClassChar
      if run.isEmpty then none
      else
        match rest.dropWhile isClassChar with
        | ':' :: rest2 =>
          if (rest2.headD ' ').isDigit then none else some (c :: run, rest2)
        | _ => none
    else none

/-- Whether a position resumed right after consuming `g2` is a line start:
true iff the last consumed character was `\n`. -/
def resumeFlag (g2 : List Char) : Bool := g2.getLast? == some '\n'

/-- Pass 2 of the formatter (`"## $1$2"` replacement), fuelled scanner.
The flag records whether the current position is a line start of the input. -/
def pass1Fuel : Nat → Bool → List Char → List Char
  | 0, _, s => s
  | _ + 1, _, [] => []
  | f + 1, flag, c :: rest =>
    match (if flag then tryMatch1 (c :: rest) else none) with
    | some (g1, g2, rest3) =>
      '#' :: '#' :: ' ' :: (g1 ++ g2 ++ pass1Fuel f (resumeFlag g2) rest3)
    | none => c :: pass1Fuel f (c == '\n') rest

/-- Pass 3 of the formatter (`"### $1"` replacement), fuelled scanner.  The
match consumes `$1` and the colon; the last consumed character is always the
colon, so scanning resumes mid-line. -/
def pass2Fuel : Nat → Bool → List Char → List Char
  | 0, _, s => s
  | _ + 1, _, [] => []
  | f + 1, flag, c :: rest =>
    match (if flag then tryMatch2 (c :: rest) else none) with
    | some (g1, rest2) => '#' :: '#' :: '#' :: ' ' :: (g1 ++ pass2Fuel f false rest2)
    | none => c :: pass2Fuel f (c == '\n') rest

/-- Pass 4 of the formatter (`/^[•●○]\s*/gm` to `"* "`), fuelled scanner. -/
def bulletFuel : Nat → Bool → List Char → List Char
  | 0, _, s => s
  | _ + 1, _, [] => []
  | f + 1, flag, c :: rest =>
    if flag && isGlyph c then
      '*' :: ' ' :: bulletFuel f (resumeFlag (rest.takeWhile isJsSpace)) (rest.dropWhile isJsSpace)
    else c :: bulletFuel f (c == '\n') rest

/-- Pass 2 at a given entry flag, with enough fuel. -/
def pass1Go (flag : Bool) (s : List Char) : List Char := pass1Fuel s.length flag s

/-- Pass 3 at a given entry flag, with enough fuel. -/
def pass2Go (flag : Bool) (s : List Char) : List Char := pass2Fuel s.length flag s

/-- Pass 4 at a given entry flag, with enough fuel. -/
def bulletGo (flag : Bool) (s : List Char) : List Char := bulletFuel s.length flag s

/-- `processedText.split("\n\n")`: left-to-right, non-overlapping split. -/
def splitNN : List Char → List (List Char)
  | '\n' :: '\n' :: rest => [] :: splitNN rest
  | c :: rest =>
    match splitNN rest with
    | [] => [[c]]
    | l :: ls => (c :: l) :: ls
  | [] => [[]]

/-- `p.startsWith("#") || p.startsWith("*") || p.startsWith("-")`. -/
def keepBlock (p : List Char) : Bool :=
  p.headD ' ' == '#' || p.headD ' ' == '*' || p.headD ' ' == '-'

/-- Step 5: split into paragraphs, drop empties (`filter(Boolean)`), keep
heading/list blocks, append a newline to the rest, re-join with `"\n\n"`. -/
def paragraphPass (s : List Char) : List Char :=
  List.intercalate ['\n', '\n']
    (((splitNN s).filter (fun p => !p.isEmpty)).map
      (fun p => if keepBlock p then p else p ++ ['\n']))

/-- The whole text transform of `formatResponseToMarkdown` up to (and
excluding) the external `marked.parse` call: the markdown text handed to the
renderer. -/
def transformL (s : List Char) : List Char :=
  paragraphPass (bulletGo true (pass2Go true (pass1Go true (normNewlines s))))

/-- String version of `transformL`. -/
def transformStr (s : String) : String := ⟨transformL s.data⟩

/-- `formatResponseToMarkdown(text)`: the pure transform followed by
`marked.parse` with fixed options (`marked` is external code, abstracted as
the argument `render`). -/
def formatResponseToMarkdown (render : String → String) (text : String) : String :=
  render (transformStr text)

/-! ## Heading-line observations (for the formatter claims)

`hashLines s` lists the lines of `s` that start with `#` — in the rendered
GFM markup these are exactly the heading lines.  The fuelled scanner mirrors
the line-start flag of the passes. -/

/-- Fuelled collector of the `#`-starting lines; the flag records whether the
current position starts a line. -/
def hashLinesFuel : Nat → Bool → List Char → List (List Char)
  | 0, _, _ => []
  | _ + 1, _, [] => []
  | f + 1, flag, c :: rest =>
    if flag && c == '#' then
      (c :: rest.takeWhile (· != '\n')) :: hashLinesFuel f false (rest.dropWhile (· != '\n'))
    else hashLinesFuel f (c == '\n') rest

/-- The `#`-starting lines of a suffix entered with the given flag. -/
def hashLinesGo (flag : Bool) (s : List Char) : List (List Char) :=
  hashLinesFuel s.length flag s

/-- The `#`-starting (heading) lines of a text. -/
def hashLines (s : List Char) : List (List Char) := hashLinesGo true s

/-- The flag holding after consuming `a`, having entered it with `flag`. -/
def endFlag (flag : Bool) (a : List Char) : Bool :=
  match a.getLast? with
  | none => flag
  | some d => d == '\n'

/-! ## The HTTP handlers (routes.ts lines 145-350, `registerRoutes`) -/

/-- A live `ChatSession` of the SDK: the key the client was constructed with
and the conversational turn history. -/
structure ChatSession where
  apiKey : String
  history : List String
deriving DecidableEq

/-- `model.startChat({tools:[{google_search:{}}]})` on a fresh client:
a new conversational context with empty history.  The fixed generation
config and system instruction of `getModel` carry no information relevant
to the claims and are not represented. -/
def startChat (key : String) : ChatSession := ⟨key, []⟩

/-- One entry of `response.candidates`. -/
structure Candidate where
  groundingMetadata : Option GroundingMetadata
deriving DecidableEq

/-- The provider response: `response.text()` and the candidates array. -/
structure ProviderResponse where
  text : String
  candidates : Option (List Candidate)
deriving DecidableEq

/-- Outcome of `chat.sendMessage(query)`: a response, or a thrown `Error`
carrying `error.message`. -/
inductive ProviderResult where
  | ok : ProviderResponse → ProviderResult
  | error : String → ProviderResult
deriving DecidableEq

/-- The external AI provider, abstracted as a function of the session state
and the query. -/
def Provider := ChatSession → String → ProviderResult

/-- `response.candidates?.[0]?.groundingMetadata`. -/
def responseMetadata (r : ProviderResponse) : Option GroundingMetadata :=
  match r.candidates with
  | some (c :: _) => c.groundingMetadata
  | _ => none

/-- The in-place mutation of a `ChatSession` by a successful `sendMessage`:
the context gains the user turn and the model turn. -/
def sessionAfter (chat : ChatSession) (query answer : String) : ChatSession :=
  { chat with history := chat.history ++ [query, answer] }

/-- `const chatSessions = new Map<string, ChatSession>()`, modelled as an
insertion-ordered association list. -/
abbrev SessionStore := List (String × ChatSession)

/-- `chatSessions.get(k)`. -/
def storeGet (store : SessionStore) (k : String) : Option ChatSession :=
  (List.find? (fun p => p.1 == k) store).map Prod.snd

/-- `chatSessions.set(k, v)`: updates in place if present, appends otherwise. -/
def storeSet (store : SessionStore) (k : String) (v : ChatSession) : SessionStore :=
  if List.any store (fun p => p.1 == k) then
    List.map (fun p => if p.1 == k then (k, v) else p) store
  else store ++ [(k, v)]

/-- `l₂` has `l₁` as a prefix. -/
def hasPrefixL : List Char → List Char → Bool
  | _, [] => true
  | [], _ :: _ => false
  | c :: cs, d :: ds => c == d && hasPrefixL cs ds

/-- Substring containment over char lists. -/
def containsSub : List Char → List Char → Bool
  | [], needle => needle.isEmpty
  | c :: t, needle => hasPrefixL (c :: t) needle || containsSub t needle

/-- `error.message.includes("API key")` — the credential-signal test of the
search route's inner catch. -/
def includesApiKey (msg : String) : Bool := containsSub msg.data "API key".data

/-- The possible responses of `GET /api/search`:
400, 401 (`{error:"API key error", message, requiresApiKey:true}`), 500, and
200 `{sessionId, summary, sources}`. -/
inductive SearchResult where
  | badRequest (message : String)
  | keyError (message : String)
  | serverError (message : String)
  | ok (sessionId : String) (summary : String) (sources : List Source)
deriving DecidableEq

/-- The request of `GET /api/search`: `req.query.q` and `req.query.apiKey`. -/
structure SearchRequest where
  q : Option String
  apiKey : Option String

/-- The outer-catch fallback message of the search route. -/
def searchDefaultMsg : String := "An error occurred while processing your search"

/-- The `GET /api/search` handler.  `genSessionId` stands for the value of
`Math.random().toString(36).substring(7)` drawn at the session-creation
point; `render` is the external markdown renderer; `envKey` is
`process.env.GOOGLE_API_KEY`.  A thrown error whose message includes
`"API key"` is remapped by the inner catch to the 401 credential response;
everything else reaches the outer catch as a 500. -/
def handleSearch (provider : Provider) (render : String → String) (genSessionId : String)
    (envKey : Option String) (req : SearchRequest) (store : SessionStore) :
    SearchResult × SessionStore :=
  if !truthyStr req.q then (.badRequest "Query parameter 'q' is required", store)
  else
    let query := req.q.getD ""
    match getGoogleAI req.apiKey envKey with
    | .error msg =>
      if includesApiKey msg then (.keyError msg, store)
      else (.serverError (orDefault msg searchDefaultMsg), store)
    | .ok key =>
      let chat := startChat key
      match provider chat query with
      | .error msg =>
        if includesApiKey msg then (.keyError msg, store)
        else (.serverError (orDefault msg searchDefaultMsg), store)
      | .ok resp =>
        (.ok genSessionId (formatResponseToMarkdown render resp.text)
           (extractSources (responseMetadata resp)),
         storeSet store genSessionId (sessionAfter chat query resp.text))

/-- The possible responses of `POST /api/follow-up`: 400, 404, 500, and 200
`{summary, sources}` — note the success body carries no session identifier. -/
inductive FollowUpResult where
  | badRequest (message : String)
  | notFound (message : String)
  | serverError (message : String)
  | ok (summary : String) (sources : List Source)
deriving DecidableEq

/-- The body of `POST /api/follow-up`: `{sessionId, query, apiKey}`.  The
`apiKey` field is destructured by the handler but never read afterwards. -/
structure FollowUpRequest where
  sessionId : Option String
  query : Option String
  apiKey : Option String

/-- The catch fallback message of the follow-up route. -/
def followUpDefaultMsg : String := "An error occurred while processing your follow-up question"

/-- The `POST /api/follow-up` handler.  It validates the body, looks the
session up, sends the query on the stored chat (whose in-place mutation is
the `storeSet` on success), and has a single catch mapping every thrown
error to a 500 — there is no credential resolution and no 401 remap on this
route. -/
def handleFollowUp (provider : Provider) (render : String → String)
    (req : FollowUpRequest) (store : SessionStore) : FollowUpResult × SessionStore :=
  if !truthyStr req.sessionId || !truthyStr req.query then
    (.badRequest "Both sessionId and query are required", store)
  else
    let sid := req.sessionId.getD ""
    let query := req.query.getD ""
    match storeGet store sid with
    | none => (.notFound "Chat session not found", store)
    | some chat =>
      match provider chat query with
      | .error msg => (.serverError (orDefault msg followUpDefaultMsg), store)
      | .ok resp =>
        (.ok (formatResponseToMarkdown render resp.text)
           (extractSources (responseMetadata resp)),
         storeSet store sid (sessionAfter chat query resp.text))

/-! # Theorems -/

/-! ## Extraction lemmas -/

theorem extractGo_cons_none {su : List GroundingSupport} {c : GroundingChunk}
    {cs : List GroundingChunk} {i : Nat} {seen : List String}
    (h : chunkUrlTitle c = none) :
    extractGo su (c :: cs) i seen = extractGo su cs (i + 1) seen := by
  simp [extractGo, h]

theorem extractGo_cons_seen {su : List GroundingSupport} {c : GroundingChunk}
    {cs : List GroundingChunk} {i : Nat} {seen : List String} {u t : String}
    (h : chunkUrlTitle c = some (u, t)) (hu : u ∈ seen) :
    extractGo su (c :: cs) i seen = extractGo su cs (i + 1) seen := by
  simp [extractGo, h, hu]

theorem extractGo_cons_new {su : List GroundingSupport} {c : GroundingChunk}
    {cs : List GroundingChunk} {i : Nat} {seen : List String} {u t : String}
    (h : chunkUrlTitle c = some (u, t)) (hu : u ∉ seen) :
    extractGo su (c :: cs) i seen =
      { title := t, url := u, snippet := snippetFor su i } ::
        extractGo su cs (i + 1) (u :: seen) := by
  simp [extractGo, h, hu]

theorem extractGo_url_not_seen (su : List GroundingSupport) :
    ∀ (cs : List GroundingChunk) (i : Nat) (seen : List String) (s : Source),
      s ∈ extractGo su cs i seen → s.url ∉ seen := by
  intro cs
  induction cs with
  | nil => simp [extractGo]
  | cons c cs ih =>
    intro i seen s h
    cases hc : chunkUrlTitle c with
    | none => rw [extractGo_cons_none hc] at h; exact ih _ _ _ h
    | some p =>
      obtain ⟨u, t⟩ := p
      by_cases hu : u ∈ seen
      · rw [extractGo_cons_seen hc hu] at h; exact ih _ _ _ h
      · rw [extractGo_cons_new hc hu] at h
        rcases List.mem_cons.mp h with h1 | h1
        · subst h1; exact hu
        · have := ih _ _ _ h1
          intro hmem
          exact this (List.mem_cons_of_mem _ hmem)

theorem extractGo_urls_nodup (su : List GroundingSupport) :
    ∀ (cs : List GroundingChunk) (i : Nat) (seen : List String),
      ((extractGo su cs i seen).map Source.url).Nodup := by
  intro cs
  induction cs with
  | nil => simp [extractGo]
  | cons c cs ih =>
    intro i seen
    cases hc : chunkUrlTitle c with
    | none => rw [extractGo_cons_none hc]; exact ih _ _
    | some p =>
      obtain ⟨u, t⟩ := p
      by_cases hu : u ∈ seen
      · rw [extractGo_cons_seen hc hu]; exact ih _ _
      · rw [extractGo_cons_new hc hu]
        refine List.nodup_cons.mpr ⟨?_, ih _ _⟩
        intro hmem
        rcases List.mem_map.mp hmem with ⟨s, hs, hurl⟩
        have := extractGo_url_not_seen su cs (i + 1) (u :: seen) s hs
        exact this (hurl ▸ List.mem_cons_self u seen)

theorem extractGo_first_title (su : List GroundingSupport) :
    ∀ (cs : List GroundingChunk) (i : Nat) (seen : List String) (s : Source),
      s ∈ extractGo su cs i seen → firstChunkTitle cs s.url = some s.title := by
  intro cs
  induction cs with
  | nil => simp [extractGo]
  | cons c cs ih =>
    intro i seen s h
    cases hc : chunkUrlTitle c with
    | none =>
      rw [extractGo_cons_none hc] at h
      simpa [firstChunkTitle, List.filterMap_cons, hc] using ih _ _ _ h
    | some p =>
      obtain ⟨u, t⟩ := p
      by_cases hu : u ∈ seen
      · rw [extractGo_cons_seen hc hu] at h
        have hne : s.url ≠ u := by
          intro he
          exact (extractGo_url_not_seen su cs (i + 1) seen s h) (he ▸ hu)
        have := ih _ _ _ h
        simpa [firstChunkTitle, List.filterMap_cons, hc,
          List.find?, (by simpa using hne.symm : ¬u = s.url)] using this
      · rw [extractGo_cons_new hc hu] at h
        rcases List.mem_cons.mp h with h1 | h1
        · subst h1
          simp [firstChunkTitle, List.filterMap_cons, hc, List.find?]
        · have hns := extractGo_url_not_seen su cs (i + 1) (u :: seen) s h1
          have hne : s.url ≠ u := fun he => hns (he ▸ List.mem_cons_self u seen)
          have := ih _ _ _ h1
          simpa [firstChunkTitle, List.filterMap_cons, hc,
            List.find?, (by simpa using hne.symm : ¬u = s.url)] using this

/-- C2: for every grounding metadata of a single answer, the extracted
source list has no two entries with the same URL, and each extracted source
carries the title of the first eligible chunk bearing its URL (first-seen
title wins when a URL appears in several chunks). -/
theorem extractSources_nodup_and_first_title (m : GroundingMetadata) :
    ((extractSources (some m)).map Source.url).Nodup ∧
    ∀ s ∈ extractSources (some m),
      firstChunkTitle (m.groundingChunks.getD []) s.url = some s.title := by
  constructor
  · exact extractGo_urls_nodup _ _ 0 []
  · intro s hs
    exact extractGo_first_title _ _ 0 [] s hs

/-- Witness for C2, at the dedup test of spec section 8: two chunks with the
same URL and different titles yield exactly one source, bearing the first
chunk's title. -/
theorem extractSources_nodup_and_first_title_witness :
    firstChunkTitle [⟨some ⟨some "u", some "T1"⟩⟩, ⟨some ⟨some "u", some "T2"⟩⟩] "u" =
      some "T1" := by
  have h := (extractSources_nodup_and_first_title
    ⟨some [⟨some ⟨some "u", some "T1"⟩⟩, ⟨some ⟨some "u", some "T2"⟩⟩], some [], none⟩).2
      { title := "T1", url := "u", snippet := "" } (by decide)
  simpa using h

theorem extractGo_eq_spec (su : List GroundingSupport) :
    ∀ (cs : List GroundingChunk) (i : Nat) (seen : List String),
      extractGo su cs i seen =
        (dedupFirst (eligibleFrom i cs) seen).map
          (fun e => { title := e.2.2, url := e.2.1, snippet := snippetSpec su e.1 }) := by
  intro cs
  induction cs with
  | nil => simp [extractGo, eligibleFrom, List.enumFrom, dedupFirst]
  | cons c cs ih =>
    intro i seen
    cases hc : chunkUrlTitle c with
    | none =>
      rw [extractGo_cons_none hc]
      simp only [eligibleFrom, List.enumFrom, List.filterMap_cons, hc, Option.map_none']
      exact ih _ _
    | some p =>
      obtain ⟨u, t⟩ := p
      by_cases hu : u ∈ seen
      · rw [extractGo_cons_seen hc hu]
        simp only [eligibleFrom, List.enumFrom, List.filterMap_cons, hc, Option.map_some']
        rw [ih]
        simp [dedupFirst, hu, eligibleFrom]
      · rw [extractGo_cons_new hc hu]
        simp only [eligibleFrom, List.enumFrom, List.filterMap_cons, hc, Option.map_some']
        rw [ih]
        simp [dedupFirst, hu, snippetFor, snippetSpec, eligibleFrom]

/-- C3: source extraction is exactly the algorithm stated in spec 4.5 —
iterate chunks in order, skip chunks missing (JS-falsy) URI or title, keep
distinct URLs in first-seen order, and give each recorded URL the
space-joined texts, in support order, of exactly the supports whose
cited-chunk-index set includes that chunk's index (empty if none). -/
theorem extractSources_eq_extractSpec :
    ∀ md : Option GroundingMetadata, extractSources md = extractSpec md := by
  intro md
  cases md with
  | none => rfl
  | some m =>
    show extractGo _ _ 0 [] = _
    rw [extractGo_eq_spec]
    have he : eligibleEntries (m.groundingChunks.getD []) =
        eligibleFrom 0 (m.groundingChunks.getD []) := by
      simp [eligibleEntries, eligibleFrom, List.enum]
    simp [extractSpec, he]

/-! ## Generic scanning lemmas -/

theorem lengthDropWhileLe (p : Char → Bool) (l : List Char) :
    (l.dropWhile p).length ≤ l.length := by
  induction l with
  | nil => simp
  | cons c rest ih =>
    rw [List.dropWhile_cons]
    split
    · exact Nat.le_trans ih (Nat.le_succ _)
    · simp

theorem takeWhileAppendAll {p : Char → Bool} {a : List Char}
    (h : ∀ c ∈ a, p c = true) (b : List Char) :
    (a ++ b).takeWhile p = a ++ b.takeWhile p := by
  induction a with
  | nil => simp
  | cons c rest ih =>
    have hc := h c (List.mem_cons_self _ _)
    simp only [List.cons_append, List.takeWhile_cons, hc, if_true]
    rw [ih (fun d hd => h d (List.mem_cons_of_mem _ hd))]

theorem dropWhileAppendAll {p : Char → Bool} {a : List Char}
    (h : ∀ c ∈ a, p c = true) (b : List Char) :
    (a ++ b).dropWhile p = b.dropWhile p := by
  induction a with
  | nil => simp
  | cons c rest ih =>
    have hc := h c (List.mem_cons_self _ _)
    simp only [List.cons_append, List.dropWhile_cons, hc, if_true]
    exact ih (fun d hd => h d (List.mem_cons_of_mem _ hd))

theorem takeWhileNotHead {p : Char → Bool} {b : List Char} {d0 : Char}
    (h : p (b.headD d0) = false) : b.takeWhile p = [] := by
  cases b with
  | nil => rfl
  | cons d rest => simp only [List.headD_cons] at h; simp [List.takeWhile_cons, h]

theorem dropWhileNotHead {p : Char → Bool} {b : List Char} {d0 : Char}
    (h : p (b.headD d0) = false) : b.dropWhile p = b := by
  cases b with
  | nil => rfl
  | cons d rest => simp only [List.headD_cons] at h; simp [List.dropWhile_cons, h]

/-! ## Match-attempt lemmas -/

theorem tryMatch1Parts {s g1 g2 rest3 : List Char}
    (h : tryMatch1 s = some (g1, g2, rest3)) :
    ∃ c run rest2, s = c :: (run ++ ':' :: rest2) ∧ g1 = c :: run ∧
      isLetterChar c = true ∧ run ≠ [] ∧ (∀ d ∈ run, isClassChar d = true) ∧
      g2 = rest2.takeWhile isJsSpace ∧ rest3 = rest2.dropWhile isJsSpace := by
  cases s with
  | nil => simp [tryMatch1] at h
  | cons c rest =>
    by_cases hc : isLetterChar c = true
    · simp only [tryMatch1, hc, if_true] at h
      by_cases hr : (rest.takeWhile isClassChar).isEmpty = true
      · simp [hr] at h
      · simp only [hr, Bool.false_eq_true, if_false] at h
        cases hd : rest.dropWhile isClassChar with
        | nil => rw [hd] at h; simp at h
        | cons d rest2 =>
          rw [hd] at h
          by_cases hcol : d = ':'
          · subst hcol
            simp only [Option.some.injEq, Prod.mk.injEq] at h
            obtain ⟨h1, h2, h3⟩ := h
            refine ⟨c, rest.takeWhile isClassChar, rest2, ?_, h1.symm, hc, ?_, ?_, h2.symm, h3.symm⟩
            · have hrd := List.takeWhile_append_dropWhile isClassChar rest
              rw [hd] at hrd
              exact congrArg (fun l => c :: l) hrd.symm
            · simpa [List.isEmpty_iff] using hr
            · exact fun d hd => List.mem_takeWhile_imp hd
          · cases hcol' : d
            simp_all
    · simp [tryMatch1, hc] at h

theorem tryMatch1Length {s g1 g2 rest3 : List Char}
    (h : tryMatch1 s = some (g1, g2, rest3)) : rest3.length < s.length := by
  obtain ⟨c, run, rest2, hs, -, -, -, -, -, hr3⟩ := tryMatch1Parts h
  subst hs hr3
  have h1 : (rest2.dropWhile isJsSpace).length ≤ rest2.length := lengthDropWhileLe _ _
  simp only [List.length_cons, List.length_append]
  omega

theorem tryMatch1Build {c : Char} {run g2 rest : List Char}
    (hc : isLetterChar c = true) (hrun : run ≠ [])
    (hall : ∀ d ∈ run, isClassChar d = true)
    (hg2 : ∀ d ∈ g2, isJsSpace d = true)
    (hrest : isJsSpace (rest.headD 'x') = false) :
    tryMatch1 (c :: (run ++ ':' :: (g2 ++ rest))) = some (c :: run, g2, rest) := by
  have hcol : isClassChar ':' = false := by decide
  have htw : (run ++ ':' :: (g2 ++ rest)).takeWhile isClassChar = run := by
    rw [takeWhileAppendAll hall, List.takeWhile_cons, hcol]
    simp
  have hdw : (run ++ ':' :: (g2 ++ rest)).dropWhile isClassChar = ':' :: (g2 ++ rest) := by
    rw [dropWhileAppendAll hall, List.dropWhile_cons, hcol]
    simp
  have hg2t : (g2 ++ rest).takeWhile isJsSpace = g2 := by
    rw [takeWhileAppendAll hg2, takeWhileNotHead hrest, List.append_nil]
  have hg2d : (g2 ++ rest).dropWhile isJsSpace = rest := by
    rw [dropWhileAppendAll hg2, dropWhileNotHead hrest]
  simp [tryMatch1, hc, htw, hdw, hg2t, hg2d, hrun]

theorem tryMatch2Parts {s g1 rest2 : List Char}
    (h : tryMatch2 s = some (g1, rest2)) :
    ∃ c run, s = c :: (run ++ ':' :: rest2) ∧ g1 = c :: run ∧
      isLetterChar c = true ∧ run ≠ [] ∧ (∀ d ∈ run, isClassChar d = true) ∧
      (rest2.headD ' ').isDigit = false := by
  cases s with
  | nil => simp [tryMatch2] at h
  | cons c rest =>
    by_cases hc : isLetterChar c = true
    · simp only [tryMatch2, hc, if_true] at h
      by_cases hr : (rest.takeWhile isClassChar).isEmpty = true
      · simp [hr] at h
      · simp only [hr, Bool.false_eq_true, if_false] at h
        cases hd : rest.dropWhile isClassChar with
        | nil => rw [hd] at h; simp at h
        | cons d restB =>
          rw [hd] at h
          by_cases hcol : d = ':'
          · subst hcol
            by_cases hdig : (restB.headD ' ').isDigit = true
            · simp only [hdig, if_true] at h
              exact Option.noConfusion h
            · simp only [hdig, Bool.false_eq_true, if_false, Option.some.injEq,
                Prod.mk.injEq] at h
              obtain ⟨h1, h2⟩ := h
              subst h2
              refine ⟨c, rest.takeWhile isClassChar, ?_, h1.symm, hc, ?_, ?_, by simpa using hdig⟩
              · have hrd := List.takeWhile_append_dropWhile isClassChar rest
                rw [hd] at hrd
                exact congrArg (fun l => c :: l) hrd.symm
              · simpa [List.isEmpty_iff] using hr
              · exact fun d hd => List.mem_takeWhile_imp hd
          · cases hcol' : d
            simp_all
    · simp [tryMatch2, hc] at h

theorem tryMatch2Length {s g1 rest2 : List Char}
    (h : tryMatch2 s = some (g1, rest2)) : rest2.length < s.length := by
  obtain ⟨c, run, hs, -, -, -, -, -⟩ := tryMatch2Parts h
  subst hs
  simp only [List.length_cons, List.length_append]
  omega

/-! ## Fuel irrelevance and step equations for the scanners

Each fuelled scanner consumes at least one input character per unit of fuel,
so any fuel at least the input length yields the same result; the `...Go`
wrappers then satisfy clean step equations. -/

theorem pass1FuelNil (f : Nat) (flag : Bool) : pass1Fuel f flag [] = [] := by
  cases f <;> rfl

theorem pass1FuelIrrel :
    ∀ (f g : Nat) (flag : Bool) (s : List Char),
      s.length ≤ f → s.length ≤ g → pass1Fuel f flag s = pass1Fuel g flag s := by
  intro f
  induction f with
  | zero =>
    intro g flag s hf _
    have : s = [] := List.length_eq_zero.mp (Nat.le_antisymm hf (Nat.zero_le _))
    subst this
    rw [pass1FuelNil, pass1FuelNil]
  | succ f ih =>
    intro g flag s hf hg
    cases s with
    | nil => rw [pass1FuelNil, pass1FuelNil]
    | cons c rest =>
      cases g with
      | zero => simp at hg
      | succ g' =>
        simp only [pass1Fuel]
        cases hm : (if flag then tryMatch1 (c :: rest) else none) with
        | none =>
          have hlen : rest.length ≤ f := by simpa using hf
          have hlen' : rest.length ≤ g' := by simpa using hg
          simp [ih g' (c == '\n') rest hlen hlen']
        | some r =>
          obtain ⟨g1, g2, rest3⟩ := r
          have hsome : tryMatch1 (c :: rest) = some (g1, g2, rest3) := by
            cases flag with
            | false => simp at hm
            | true => simpa using hm
          have hlt := tryMatch1Length hsome
          have hlen : rest3.length ≤ f := by
            simp only [List.length_cons] at hlt hf
            omega
          have hlen' : rest3.length ≤ g' := by
            simp only [List.length_cons] at hlt hg
            omega
          simp [ih g' (resumeFlag g2) rest3 hlen hlen']

theorem pass1GoNil (flag : Bool) : pass1Go flag [] = [] := rfl

theorem pass1FuelConsTrue (f : Nat) (c : Char) (rest : List Char) :
    pass1Fuel (f + 1) true (c :: rest) =
      match tryMatch1 (c :: rest) with
      | some (g1, g2, rest3) =>
        '#' :: '#' :: ' ' :: (g1 ++ g2 ++ pass1Fuel f (resumeFlag g2) rest3)
      | none => c :: pass1Fuel f (c == '\n') rest := rfl

theorem pass1GoFalse (c : Char) (rest : List Char) :
    pass1Go false (c :: rest) = c :: pass1Go (c == '\n') rest := by
  simp only [pass1Go, List.length_cons, pass1Fuel]
  rfl

theorem pass1GoNoMatch {c : Char} {rest : List Char}
    (h : tryMatch1 (c :: rest) = none) :
    pass1Go true (c :: rest) = c :: pass1Go (c == '\n') rest := by
  show pass1Fuel (rest.length + 1) true (c :: rest) = _
  rw [pass1FuelConsTrue, h]
  rfl

theorem pass1GoMatch {c : Char} {rest g1 g2 rest3 : List Char}
    (h : tryMatch1 (c :: rest) = some (g1, g2, rest3)) :
    pass1Go true (c :: rest) =
      '#' :: '#' :: ' ' :: (g1 ++ g2 ++ pass1Go (resumeFlag g2) rest3) := by
  have hlt := tryMatch1Length h
  simp only [List.length_cons] at hlt
  show pass1Fuel (rest.length + 1) true (c :: rest) = _
  rw [pass1FuelConsTrue, h]
  show '#' :: '#' :: ' ' :: (g1 ++ g2 ++ pass1Fuel rest.length (resumeFlag g2) rest3) = _
  rw [pass1FuelIrrel rest.length rest3.length _ rest3 (by omega) (Nat.le_refl _)]
  rfl

theorem pass2FuelNil (f : Nat) (flag : Bool) : pass2Fuel f flag [] = [] := by
  cases f <;> rfl

theorem pass2FuelIrrel :
    ∀ (f g : Nat) (flag : Bool) (s : List Char),
      s.length ≤ f → s.length ≤ g → pass2Fuel f flag s = pass2Fuel g flag s := by
  intro f
  induction f with
  | zero =>
    intro g flag s hf _
    have : s = [] := List.length_eq_zero.mp (Nat.le_antisymm hf (Nat.zero_le _))
    subst this
    rw [pass2FuelNil, pass2FuelNil]
  | succ f ih =>
    intro g flag s hf hg
    cases s with
    | nil => rw [pass2FuelNil, pass2FuelNil]
    | cons c rest =>
      cases g with
      | zero => simp at hg
      | succ g' =>
        simp only [pass2Fuel]
        cases hm : (if flag then tryMatch2 (c :: rest) else none) with
        | none =>
          have hlen : rest.length ≤ f := by simpa using hf
          have hlen' : rest.length ≤ g' := by simpa using hg
          simp [ih g' (c == '\n') rest hlen hlen']
        | some r =>
          obtain ⟨g1, rest2⟩ := r
          have hsome : tryMatch2 (c :: rest) = some (g1, rest2) := by
            cases flag with
            | false => simp at hm
            | true => simpa using hm
          have hlt := tryMatch2Length hsome
          have hlen : rest2.length ≤ f := by
            simp only [List.length_cons] at hlt hf
            omega
          have hlen' : rest2.length ≤ g' := by
            simp only [List.length_cons] at hlt hg
            omega
          simp [ih g' false rest2 hlen hlen']

theorem pass2GoNil (flag : Bool) : pass2Go flag [] = [] := rfl

theorem pass2FuelConsTrue (f : Nat) (c : Char) (rest : List Char) :
    pass2Fuel (f + 1) true (c :: rest) =
      match tryMatch2 (c :: rest) with
      | some (g1, rest2) => '#' :: '#' :: '#' :: ' ' :: (g1 ++ pass2Fuel f false rest2)
      | none => c :: pass2Fuel f (c == '\n') rest := rfl

theorem pass2GoFalse (c : Char) (rest : List Char) :
    pass2Go false (c :: rest) = c :: pass2Go (c == '\n') rest := by
  simp only [pass2Go, List.length_cons, pass2Fuel]
  rfl

theorem pass2GoNoMatch {c : Char} {rest : List Char}
    (h : tryMatch2 (c :: rest) = none) :
    pass2Go true (c :: rest) = c :: pass2Go (c == '\n') rest := by
  show pass2Fuel (rest.length + 1) true (c :: rest) = _
  rw [pass2FuelConsTrue, h]
  rfl

theorem pass2GoMatch {c : Char} {rest g1 rest2 : List Char}
    (h : tryMatch2 (c :: rest) = some (g1, rest2)) :
    pass2Go true (c :: rest) =
      '#' :: '#' :: '#' :: ' ' :: (g1 ++ pass2Go false rest2) := by
  have hlt := tryMatch2Length h
  simp only [List.length_cons] at hlt
  show pass2Fuel (rest.length + 1) true (c :: rest) = _
  rw [pass2FuelConsTrue, h]
  show '#' :: '#' :: '#' :: ' ' :: (g1 ++ pass2Fuel rest.length false rest2) = _
  rw [pass2FuelIrrel rest.length rest2.length _ rest2 (by omega) (Nat.le_refl _)]
  rfl

theorem hashLinesFuelNil (f : Nat) (flag : Bool) : hashLinesFuel f flag [] = [] := by
  cases f <;> rfl

theorem hashLinesFuelIrrel :
    ∀ (f g : Nat) (flag : Bool) (s : List Char),
      s.length ≤ f → s.length ≤ g → hashLinesFuel f flag s = hashLinesFuel g flag s := by
  intro f
  induction f with
  | zero =>
    intro g flag s hf _
    have : s = [] := List.length_eq_zero.mp (Nat.le_antisymm hf (Nat.zero_le _))
    subst this
    rw [hashLinesFuelNil, hashLinesFuelNil]
  | succ f ih =>
    intro g flag s hf hg
    cases s with
    | nil => rw [hashLinesFuelNil, hashLinesFuelNil]
    | cons c rest =>
      cases g with
      | zero => simp at hg
      | succ g' =>
        simp only [hashLinesFuel]
        have hlen : rest.length ≤ f := by simpa using hf
        have hlen' : rest.length ≤ g' := by simpa using hg
        by_cases hh : (flag && c == '#') = true
        · simp only [hh, if_true]
          have hd : (rest.dropWhile (· != '\n')).length ≤ rest.length :=
            lengthDropWhileLe _ _
          rw [ih g' _ _ (Nat.le_trans hd hlen) (Nat.le_trans hd hlen')]
        · simp only [hh, Bool.false_eq_true, if_false]
          rw [ih g' _ rest hlen hlen']

theorem hashLinesGoNil (flag : Bool) : hashLinesGo flag [] = [] := rfl

theorem hashLinesGoHash (rest : List Char) :
    hashLinesGo true ('#' :: rest) =
      ('#' :: rest.takeWhile (· != '\n')) ::
        hashLinesGo false (rest.dropWhile (· != '\n')) := by
  have hd : (rest.dropWhile (· != '\n')).length ≤ rest.length := lengthDropWhileLe _ _
  simp only [hashLinesGo, List.length_cons, hashLinesFuel]
  rw [if_pos (by simp)]
  rw [hashLinesFuelIrrel rest.length (rest.dropWhile (· != '\n')).length _ _ hd (Nat.le_refl _)]

theorem hashLinesGoOther {c : Char} (flag : Bool) (rest : List Char)
    (h : (flag && c == '#') = false) :
    hashLinesGo flag (c :: rest) = hashLinesGo (c == '\n') rest := by
  simp only [hashLinesGo, List.length_cons, hashLinesFuel, h]
  rfl

theorem bulletFuelNil (f : Nat) (flag : Bool) : bulletFuel f flag [] = [] := by
  cases f <;> rfl

theorem bulletFuelIrrel :
    ∀ (f g : Nat) (flag : Bool) (s : List Char),
      s.length ≤ f → s.length ≤ g → bulletFuel f flag s = bulletFuel g flag s := by
  intro f
  induction f with
  | zero =>
    intro g flag s hf _
    have : s = [] := List.length_eq_zero.mp (Nat.le_antisymm hf (Nat.zero_le _))
    subst this
    rw [bulletFuelNil, bulletFuelNil]
  | succ f ih =>
    intro g flag s hf hg
    cases s with
    | nil => rw [bulletFuelNil, bulletFuelNil]
    | cons c rest =>
      cases g with
      | zero => simp at hg
      | succ g' =>
        simp only [bulletFuel]
        have hlen : rest.length ≤ f := by simpa using hf
        have hlen' : rest.length ≤ g' := by simpa using hg
        by_cases hh : (flag && isGlyph c) = true
        · simp only [hh, if_true]
          have hd : (rest.dropWhile isJsSpace).length ≤ rest.length :=
            lengthDropWhileLe _ _
          rw [ih g' _ _ (Nat.le_trans hd hlen) (Nat.le_trans hd hlen')]
        · simp only [hh, Bool.false_eq_true, if_false]
          rw [ih g' _ rest hlen hlen']

theorem bulletGoNil (flag : Bool) : bulletGo flag [] = [] := rfl

theorem bulletGoGlyph {c : Char} (rest : List Char) (h : isGlyph c = true) :
    bulletGo true (c :: rest) =
      '*' :: ' ' :: bulletGo (resumeFlag (rest.takeWhile isJsSpace)) (rest.dropWhile isJsSpace) := by
  have hd : (rest.dropWhile isJsSpace).length ≤ rest.length := lengthDropWhileLe _ _
  simp only [bulletGo, List.length_cons, bulletFuel]
  rw [if_pos (by simp [h])]
  rw [bulletFuelIrrel rest.length (rest.dropWhile isJsSpace).length _ _ hd (Nat.le_refl _)]

theorem bulletGoOther {c : Char} (flag : Bool) (rest : List Char)
    (h : (flag && isGlyph c) = false) :
    bulletGo flag (c :: rest) = c :: bulletGo (c == '\n') rest := by
  simp only [bulletGo, List.length_cons, bulletFuel, h]
  rfl

/-! ## Credential resolution -/

/-- C6: credential resolution returns the caller-supplied credential
whenever it is non-empty, otherwise the environment-configured one, and
fails with the missing-credential error exactly when both are absent
(absent in the JS sense: `undefined` or empty). -/
theorem getGoogleAI_precedence (a e : Option String) :
    (∀ s, a = some s → s ≠ "" → getGoogleAI a e = .ok s) ∧
    (truthyStr a = false → ∀ t, e = some t → t ≠ "" → getGoogleAI a e = .ok t) ∧
    (getGoogleAI a e = .error noKeyMessage ↔ truthyStr a = false ∧ truthyStr e = false) := by
  refine ⟨?_, ?_, ?_⟩
  · intro s ha hs
    subst ha
    simp [getGoogleAI, jsOr, truthyStr, hs]
  · intro ha t he ht
    subst he
    cases a with
    | none => simp [getGoogleAI, jsOr, truthyStr, ht] at *
    | some s =>
      have hs : s = "" := by
        by_contra hne
        simp [truthyStr, hne] at ha
      subst hs
      simp [getGoogleAI, jsOr, truthyStr, ht]
  · constructor
    · intro h
      cases a with
      | none =>
        cases e with
        | none => exact ⟨rfl, rfl⟩
        | some t =>
          by_cases ht : t = ""
          · subst ht; exact ⟨rfl, by simp [truthyStr]⟩
          · simp [getGoogleAI, jsOr, truthyStr, ht] at h
      | some s =>
        by_cases hs : s = ""
        · subst hs
          cases e with
          | none => exact ⟨by simp [truthyStr], rfl⟩
          | some t =>
            by_cases ht : t = ""
            · subst ht; exact ⟨by simp [truthyStr], by simp [truthyStr]⟩
            · simp [getGoogleAI, jsOr, truthyStr, ht] at h
        · simp [getGoogleAI, jsOr, truthyStr, hs] at h
    · rintro ⟨ha, he⟩
      cases a with
      | none =>
        cases e with
        | none => rfl
        | some t =>
          have : t = "" := by by_contra hne; simp [truthyStr, hne] at he
          subst this; rfl
      | some s =>
        have hs : s = "" := by by_contra hne; simp [truthyStr, hne] at ha
        subst hs
        cases e with
        | none => rfl
        | some t =>
          have : t = "" := by by_contra hne; simp [truthyStr, hne] at he
          subst this; rfl

/-- Witness for C6: a request-level credential wins over a present
environment-level one. -/
theorem getGoogleAI_precedence_witness :
    getGoogleAI (some "requestKey") (some "envKey") = .ok "requestKey" :=
  (getGoogleAI_precedence (some "requestKey") (some "envKey")).1 "requestKey" rfl
    (by decide)

/-! ## Formatter heading-promotion claims -/

/-- C4 counterexample: the line `"Overview: Some text"` is NOT rewritten into
a level-2 heading `"Overview"` followed by the separate text `"Some text"`;
the whole line becomes the single heading line `"## Overview Some text"`
(the match consumes `"Overview: "` and `$1$2` merges the trailing text into
the heading).  Moreover a line with leading whitespace before a capitalized
label (`"  Overview:"`) is not rewritten at all, since the pattern is
anchored at the line start. -/
theorem pass1HeadingCounterexample :
    transformStr "Overview: Some text" = "## Overview Some text" ∧
    hashLines (transformStr "Overview: Some text").data = ["## Overview Some text".data] ∧
    transformStr "  Overview:" = "  Overview:\n" := by
  refine ⟨by decide, by decide, by decide⟩

/-- C4 (amended): in the top-level pass, a line beginning at column 0 with a
label (a letter followed by one or more letters or whitespace characters)
immediately followed by a colon is rewritten by replacing the label and the
colon with `"## "`, the label and the following whitespace; any text after
the colon stays on the same (heading) line, so `"Overview: Some text"`
becomes the single level-2 heading line `"## Overview Some text"`.  Lines
with leading whitespace are not rewritten. -/
theorem pass1HeadingPromotionAmended
    (c : Char) (run g2 rest : List Char)
    (hc : isLetterChar c = true) (hrun : run ≠ [])
    (hall : ∀ d ∈ run, isClassChar d = true)
    (hg2 : ∀ d ∈ g2, isJsSpace d = true)
    (hrest : isJsSpace (rest.headD 'x') = false) :
    pass1Go true (c :: (run ++ ':' :: (g2 ++ rest))) =
      '#' :: '#' :: ' ' :: ((c :: run) ++ g2 ++ pass1Go (resumeFlag g2) rest) := by
  rw [pass1GoMatch (tryMatch1Build hc hrun hall hg2 hrest)]

/-- Witness for the amended C4, at the spec example `"Overview: Some text"`. -/
theorem pass1HeadingPromotionAmendedWitness :
    pass1Go true ('O' :: ("verview".data ++ ':' :: (" ".data ++ "Some text".data))) =
      '#' :: '#' :: ' ' :: (('O' :: "verview".data) ++ " ".data ++
        pass1Go (resumeFlag " ".data) "Some text".data) :=
  pass1HeadingPromotionAmended 'O' "verview".data " ".data "Some text".data
    (by decide) (by decide) (by decide) (by decide) (by decide)

/-- C5: the sub-section pass never promotes a label whose colon is
immediately followed by a digit: every successful match of its pattern has a
non-digit (or nothing) after the colon; concretely, `"Speed:3 units"` is left
unchanged by the sub-section pass, and a paragraph containing
`"Ratio: 3:2"` mid-paragraph is not mangled into a stray heading around
`"3:"` — no level-3 heading appears and `"3:2"` survives intact. -/
theorem pass2DigitGuard :
    (∀ s g1 rest2 : List Char, tryMatch2 s = some (g1, rest2) →
      (rest2.headD ' ').isDigit = false) ∧
    pass2Go true "Speed:3 units".data = "Speed:3 units".data ∧
    transformStr "Ab\nThe Ratio: 3:2 said" = "## Ab\nThe Ratio 3:2 said" := by
  refine ⟨?_, by decide, by decide⟩
  intro s g1 rest2 h
  obtain ⟨c, run, hs, hg1, hc, hrun, hall, hdig⟩ := tryMatch2Parts h
  exact hdig

/-- Witness for C5: the guard fact applied at the concrete successful match
`"Note: x"` (colon followed by a space, so the match succeeds and the
character after the colon is not a digit). -/
theorem pass2DigitGuardWitness :
    ((" x".data).headD ' ').isDigit = false :=
  pass2DigitGuard.1 "Note: x".data "Note".data " x".data (by decide)

/-! ## Orchestrator claims -/

theorem storeGetSetSelf (k : String) (v : ChatSession) :
    ∀ store : SessionStore, storeGet (storeSet store k v) k = some v := by
  intro store
  unfold storeSet
  split
  case isTrue h =>
    induction store with
    | nil => simp at h
    | cons p rest ih =>
      by_cases hp : (p.1 == k) = true
      · simp [storeGet, List.find?, hp]
      · have h' : List.any rest (fun p => p.1 == k) = true := by
          simp only [List.any_cons, hp, Bool.false_or] at h
          exact h
        simp only [List.map_cons, hp, Bool.false_eq_true, if_false]
        simp only [storeGet, List.find?, hp]
        exact ih h'
  case isFalse h =>
    induction store with
    | nil => simp [storeGet, List.find?]
    | cons p rest ih =>
      have hp : (p.1 == k) = false := by
        by_contra hc
        simp only [Bool.not_eq_false] at hc
        simp [List.any_cons, hc] at h
      have h' : List.any rest (fun p => p.1 == k) ≠ true := by
        intro hc
        simp [List.any_cons, hc] at h
      simp only [List.cons_append, storeGet, List.find?, hp]
      exact ih h'

/-- C1 counterexample: a follow-up against a known session whose provider
call fails with a credential-related error (its message includes the
`"API key"` signal the search route tests for) is answered with the generic
500 error envelope, not with the 401 credential taxonomy; the caller-supplied
`apiKey` in the body plays no role.  This refutes the claim that the
follow-up orchestration resolves the credential and remaps credential
failures to 401. -/
theorem followUpCredentialErrorIs500 :
    includesApiKey "API key not valid" = true ∧
    (handleFollowUp (fun _ _ => ProviderResult.error "API key not valid") id
        ⟨some "abc", some "y", some "freshKey"⟩ [("abc", ⟨"k", []⟩)]).1 =
      FollowUpResult.serverError "API key not valid" := by
  exact ⟨by decide, by decide⟩

/-- C1 (amended): for a follow-up with a known sessionId, the handler
performs no credential resolution — the request-level apiKey is never read
(responses are identical for any two apiKey values), the stored chat keeps
the credential it was created with — and every provider failure,
credential-related or not, surfaces as the generic 500 failure carrying the
provider's message; only the search route remaps credential errors to 401. -/
theorem followUpNoCredentialResolution
    (provider : Provider) (render : String → String) (sid q msg : String)
    (k1 : Option String) (store : SessionStore) (chat : ChatSession)
    (hsid : sid ≠ "") (hq : q ≠ "")
    (hget : storeGet store sid = some chat)
    (hp : provider chat q = .error msg) (hmsg : msg ≠ "") :
    handleFollowUp provider render ⟨some sid, some q, k1⟩ store =
      (.serverError msg, store) ∧
    (∀ (s q' k2 k3 : Option String) (st : SessionStore),
      handleFollowUp provider render ⟨s, q', k2⟩ st =
        handleFollowUp provider render ⟨s, q', k3⟩ st) := by
  constructor
  · simp [handleFollowUp, truthyStr, hsid, hq, hget, hp, orDefault, hmsg]
  · intro s q' k2 k3 st
    rfl

/-- Witness for the amended C1 at a concrete failing provider. -/
theorem followUpNoCredentialResolutionWitness :
    handleFollowUp (fun _ _ => ProviderResult.error "API key not valid") id
        ⟨some "abc", some "y", some "freshKey"⟩ [("abc", ⟨"k", []⟩)] =
      (.serverError "API key not valid", [("abc", ⟨"k", []⟩)]) :=
  (followUpNoCredentialResolution (fun _ _ => ProviderResult.error "API key not valid")
    id "abc" "y" "API key not valid" (some "freshKey") [("abc", ⟨"k", []⟩)] ⟨"k", []⟩
    (by decide) (by decide) (by decide) rfl (by decide)).1

/-- C9: a successful StartSearch responds 200 with the generated sessionId
and stores the mutated session under exactly that id; a ContinueFollowUp
with that sessionId whose provider call succeeds responds with the 200 body
`{summary, sources}` — the `FollowUpResult.ok` shape carries no session
identifier — updating the stored session in place; a ContinueFollowUp with
an unknown sessionId responds 404 `"Chat session not found"` and leaves the
store untouched. -/
theorem sessionContinuity
    (provider : Provider) (render : String → String) (sid : String)
    (envKey apiKey apiKey2 : Option String) (q q2 key : String)
    (store : SessionStore) (resp resp2 : ProviderResponse)
    (hsid : sid ≠ "") (hq : q ≠ "") (hq2 : q2 ≠ "")
    (hkey : getGoogleAI apiKey envKey = .ok key)
    (hp : provider (startChat key) q = .ok resp) :
    handleSearch provider render sid envKey ⟨some q, apiKey⟩ store =
      (.ok sid (formatResponseToMarkdown render resp.text)
         (extractSources (responseMetadata resp)),
       storeSet store sid (sessionAfter (startChat key) q resp.text)) ∧
    storeGet (storeSet store sid (sessionAfter (startChat key) q resp.text)) sid =
      some (sessionAfter (startChat key) q resp.text) ∧
    (provider (sessionAfter (startChat key) q resp.text) q2 = .ok resp2 →
      handleFollowUp provider render ⟨some sid, some q2, apiKey2⟩
          (storeSet store sid (sessionAfter (startChat key) q resp.text)) =
        (.ok (formatResponseToMarkdown render resp2.text)
           (extractSources (responseMetadata resp2)),
         storeSet (storeSet store sid (sessionAfter (startChat key) q resp.text)) sid
           (sessionAfter (sessionAfter (startChat key) q resp.text) q2 resp2.text))) ∧
    (∀ badSid : String, badSid ≠ "" → storeGet store badSid = none →
      handleFollowUp provider render ⟨some badSid, some q2, apiKey2⟩ store =
        (.notFound "Chat session not found", store)) := by
  refine ⟨?_, storeGetSetSelf _ _ _, ?_, ?_⟩
  · simp [handleSearch, truthyStr, hq, hkey, hp]
  · intro hp2
    simp [handleFollowUp, truthyStr, hsid, hq2, storeGetSetSelf, hp2]
  · intro badSid hbad hnone
    simp [handleFollowUp, truthyStr, hbad, hq2, hnone]

/-- Witness for C9 at a concrete provider, store and queries. -/
theorem sessionContinuityWitness :
    handleSearch (fun _ _ => ProviderResult.ok ⟨"ans", none⟩) id "s7" (some "envK")
        ⟨some "x", none⟩ [] =
      (.ok "s7" (formatResponseToMarkdown id "ans") (extractSources (responseMetadata ⟨"ans", none⟩)),
       storeSet [] "s7" (sessionAfter (startChat "envK") "x" "ans")) :=
  (sessionContinuity (fun _ _ => ProviderResult.ok ⟨"ans", none⟩) id "s7" (some "envK")
    none none "x" "y" "envK" [] ⟨"ans", none⟩ ⟨"ans", none⟩
    (by decide) (by decide) (by decide) rfl rfl).1

/-- C10: StartSearch is atomic with respect to the session store — whenever
the response is anything other than the 200 success (missing query,
credential failure, provider failure), the store is returned unchanged: the
sessionId is generated and the entry stored only in the success branch, after
the provider call, formatting and extraction have completed.  (Formatting
and extraction are total transformations of the response and cannot fail;
the failure points are validation, credential resolution and the provider
call.) -/
theorem handleSearchAtomic
    (provider : Provider) (render : String → String) (sid : String)
    (envKey : Option String) (req : SearchRequest) (store store' : SessionStore)
    (r : SearchResult)
    (hrun : handleSearch provider render sid envKey req store = (r, store'))
    (hfail : ∀ s sm ss, r ≠ SearchResult.ok s sm ss) :
    store' = store := by
  unfold handleSearch at hrun
  by_cases h1 : (!truthyStr req.q) = true
  · simp only [h1, if_true] at hrun
    rw [Prod.ext_iff] at hrun
    exact hrun.2.symm
  · simp only [h1, Bool.false_eq_true, if_false] at hrun
    cases hg : getGoogleAI req.apiKey envKey with
    | error msg =>
      simp only [hg] at hrun
      split at hrun <;> (rw [Prod.ext_iff] at hrun; exact hrun.2.symm)
    | ok key =>
      simp only [hg] at hrun
      cases hp : provider (startChat key) (req.q.getD "") with
      | error msg =>
        simp only [hp] at hrun
        split at hrun <;> (rw [Prod.ext_iff] at hrun; exact hrun.2.symm)
      | ok resp =>
        simp only [hp] at hrun
        rw [Prod.ext_iff] at hrun
        exact absurd hrun.1.symm (hfail _ _ _)

/-- Witness for C10 at a failing provider: the store stays empty. -/
theorem handleSearchAtomicWitness : ([] : SessionStore) = [] :=
  handleSearchAtomic (fun _ _ => ProviderResult.error "boom") id "s1" (some "k")
    ⟨some "x", none⟩ [] [] (.serverError "boom") (by decide)
    (fun _ _ _ h => SearchResult.noConfusion h)

/-- C8: the formatter is pure and deterministic — `formatResponseToMarkdown`
is a function of the raw text alone, so two runs on equal texts give the
same HTML — and it touches no network or session state: within the
orchestration the entire search response (which embeds the formatted
summary) is independent of the session store. -/
theorem formatterPureDeterministic :
    (∀ (render : String → String) (t1 t2 : String), t1 = t2 →
      formatResponseToMarkdown render t1 = formatResponseToMarkdown render t2) ∧
    (∀ (provider : Provider) (render : String → String) (sid : String)
        (envKey : Option String) (req : SearchRequest) (s1 s2 : SessionStore),
      (handleSearch provider render sid envKey req s1).1 =
        (handleSearch provider render sid envKey req s2).1) := by
  constructor
  · intro render t1 t2 h
    rw [h]
  · intro provider render sid envKey req s1 s2
    unfold handleSearch
    by_cases h1 : (!truthyStr req.q) = true
    · simp [h1]
    · simp only [h1, Bool.false_eq_true, if_false]
      cases hg : getGoogleAI req.apiKey envKey with
      | error msg =>
        simp only [hg]
        split <;> rfl
      | ok key =>
        simp only [hg]
        cases hp : provider (startChat key) (req.q.getD "") with
        | error msg =>
          simp only [hp]
          split <;> rfl
        | ok resp =>
          simp only [hp]

/-- Witness for C8: two runs of the formatter on the same text agree. -/
theorem formatterPureDeterministicWitness :
    formatResponseToMarkdown id "Overview:" = formatResponseToMarkdown id "Overview:" :=
  formatterPureDeterministic.1 id "Overview:" "Overview:" rfl

/-! ## Heading preservation by the promotion passes (claim C7)

`hashLinesGo flag s` collects the `#`-starting lines of `s`, entering with
the given line-start flag.  The key facts: a segment containing no `#`
is absorbed while only updating the flag; at flag `false` the collector
ignores the remainder of the current line; and entering with flag `false`
collects a sublist of what flag `true` collects. -/

theorem getLastConsSome (d : Char) (t : List Char) : ∃ l, (d :: t).getLast? = some l := by
  induction t generalizing d with
  | nil => exact ⟨d, rfl⟩
  | cons e t' ih =>
    obtain ⟨l, hl⟩ := ih e
    exact ⟨l, by rw [List.getLast?_cons_cons]; exact hl⟩

theorem resumeFlagEqEndFlag (g2 : List Char) : resumeFlag g2 = endFlag false g2 := by
  cases hg : g2.getLast? with
  | none => simp [resumeFlag, endFlag, hg]
  | some l => simp [resumeFlag, endFlag, hg]

theorem endFlagCons (flag : Bool) (c : Char) (a : List Char) :
    endFlag flag (c :: a) = endFlag (c == '\n') a := by
  cases a with
  | nil => simp [endFlag]
  | cons d t =>
    unfold endFlag
    rw [List.getLast?_cons_cons]
    obtain ⟨l, hl⟩ := getLastConsSome d t
    rw [hl]

theorem getLastAppendCons (x : List Char) (d : Char) (y : List Char) :
    (x ++ d :: y).getLast? = (d :: y).getLast? := by
  induction x with
  | nil => rfl
  | cons c x' ih =>
    cases x' with
    | nil => simp [List.getLast?_cons_cons]
    | cons e t => simpa [List.getLast?_cons_cons] using ih

theorem endFlagAppend (flag : Bool) (x y : List Char) :
    endFlag flag (x ++ y) = endFlag (endFlag flag x) y := by
  cases y with
  | nil => simp [endFlag]
  | cons d t =>
    unfold endFlag
    rw [getLastAppendCons]
    obtain ⟨l, hl⟩ := getLastConsSome d t
    rw [hl]

theorem classNotHash {c : Char} (h : isClassChar c = true) : (c == '#') = false := by
  by_cases hc : c = '#'
  · subst hc
    exact absurd h (by decide)
  · exact beq_eq_false_iff_ne.mpr hc

theorem letterNotHash {c : Char} (h : isLetterChar c = true) : (c == '#') = false := by
  by_cases hc : c = '#'
  · subst hc
    exact absurd h (by decide)
  · exact beq_eq_false_iff_ne.mpr hc

theorem spaceNotHash {c : Char} (h : isJsSpace c = true) : (c == '#') = false := by
  by_cases hc : c = '#'
  · subst hc
    exact absurd h (by decide)
  · exact beq_eq_false_iff_ne.mpr hc

theorem hashGoAbsorb :
    ∀ (a : List Char) (flag : Bool) (b : List Char),
      (∀ ch ∈ a, (ch == '#') = false) →
      hashLinesGo flag (a ++ b) = hashLinesGo (endFlag flag a) b := by
  intro a
  induction a with
  | nil =>
    intro flag b _
    simp [endFlag]
  | cons c a' ih =>
    intro flag b h
    have hc := h c (List.mem_cons_self _ _)
    have hstep : (flag && c == '#') = false := by simp [hc]
    rw [List.cons_append, hashLinesGoOther flag _ hstep,
      ih _ _ (fun d hd => h d (List.mem_cons_of_mem _ hd)), endFlagCons]

theorem hashGoSkipDrop : ∀ x : List Char,
    hashLinesGo false x = hashLinesGo false (x.dropWhile (· != '\n')) := by
  intro x
  induction x with
  | nil => rfl
  | cons c rest ih =>
    by_cases hc : c = '\n'
    · subst hc
      simp [List.dropWhile_cons]
    · have hpred : ((· != '\n') c) = true := by simpa using hc
      rw [hashLinesGoOther false _ (by simp), List.dropWhile_cons, if_pos hpred, ← ih]
      have : (c == '\n') = false := beq_eq_false_iff_ne.mpr hc
      rw [this]

theorem hashGoFalseLift : ∀ (b : Bool) (x : List Char),
    List.Sublist (hashLinesGo false x) (hashLinesGo b x) := by
  intro b x
  cases b with
  | false => exact List.Sublist.refl _
  | true =>
    cases x with
    | nil => exact List.Sublist.refl _
    | cons c rest =>
      by_cases hc : c = '#'
      · subst hc
        rw [hashLinesGoHash, hashLinesGoOther false _ (by simp)]
        have : (('#' : Char) == '\n') = false := by decide
        rw [this, hashGoSkipDrop rest]
        exact List.Sublist.cons _ (List.Sublist.refl _)
      · have h1 : (false && c == '#') = false := by simp
        have h2 : (true && c == '#') = false := by
          simp [beq_eq_false_iff_ne.mpr hc]
        rw [hashLinesGoOther false _ h1, hashLinesGoOther true _ h2]

theorem dropWhileHeadFalse {p : Char → Bool} :
    ∀ {x : List Char} {d : Char} {y : List Char}, x.dropWhile p = d :: y → p d = false := by
  intro x
  induction x with
  | nil => intro d y h; simp at h
  | cons c rest ih =>
    intro d y h
    rw [List.dropWhile_cons] at h
    by_cases hpc : p c = true
    · rw [if_pos hpc] at h
      exact ih h
    · rw [if_neg hpc] at h
      cases h
      simpa using hpc

theorem pass1GoFalseDecomp : ∀ x : List Char,
    pass1Go false x = x.takeWhile (· != '\n') ++
      (match x.dropWhile (· != '\n') with
       | [] => []
       | d :: y => d :: pass1Go true y) := by
  intro x
  induction x with
  | nil => rfl
  | cons c rest ih =>
    by_cases hc : c = '\n'
    · subst hc
      rw [pass1GoFalse]
      simp [List.takeWhile_cons, List.dropWhile_cons]
    · have hpred : ((· != '\n') c) = true := by simpa using hc
      rw [pass1GoFalse, List.takeWhile_cons, if_pos hpred, List.dropWhile_cons, if_pos hpred]
      rw [beq_eq_false_iff_ne.mpr hc]
      simpa using ih

theorem pass2GoFalseDecomp : ∀ x : List Char,
    pass2Go false x = x.takeWhile (· != '\n') ++
      (match x.dropWhile (· != '\n') with
       | [] => []
       | d :: y => d :: pass2Go true y) := by
  intro x
  induction x with
  | nil => rfl
  | cons c rest ih =>
    by_cases hc : c = '\n'
    · subst hc
      rw [pass2GoFalse]
      simp [List.takeWhile_cons, List.dropWhile_cons]
    · have hpred : ((· != '\n') c) = true := by simpa using hc
      rw [pass2GoFalse, List.takeWhile_cons, if_pos hpred, List.dropWhile_cons, if_pos hpred]
      rw [beq_eq_false_iff_ne.mpr hc]
      simpa using ih

theorem endFlagConcatColon (b : Bool) (x : List Char) : endFlag b (x ++ [':']) = false := by
  unfold endFlag
  rw [getLastAppendCons x ':' []]
  rfl

theorem endFlagConsIndep (b b' : Bool) (d : Char) (y : List Char) :
    endFlag b (d :: y) = endFlag b' (d :: y) := by
  unfold endFlag
  obtain ⟨l, hl⟩ := getLastConsSome d y
  rw [hl]

theorem pass1Preserve :
    ∀ (n : Nat) (s : List Char) (flag : Bool), s.length ≤ n →
      List.Sublist (hashLinesGo flag s) (hashLinesGo flag (pass1Go flag s)) := by
  intro n
  induction n with
  | zero =>
    intro s flag h
    have hs : s = [] := List.length_eq_zero.mp (Nat.le_antisymm h (Nat.zero_le _))
    subst hs
    rw [pass1GoNil]
  | succ n ih =>
    intro s flag h
    cases s with
    | nil => rw [pass1GoNil]
    | cons c rest =>
      have hrest : rest.length ≤ n := by simpa using h
      cases flag with
      | false =>
        rw [pass1GoFalse, hashLinesGoOther false _ (by simp),
          hashLinesGoOther false _ (by simp)]
        exact ih rest (c == '\n') hrest
      | true =>
        cases hm : tryMatch1 (c :: rest) with
        | none =>
          rw [pass1GoNoMatch hm]
          by_cases hc : c = '#'
          · subst hc
            rw [show (('#' : Char) == '\n') = false from by decide]
            rw [hashLinesGoHash, hashLinesGoHash]
            have hall : ∀ ch ∈ rest.takeWhile (· != '\n'), ((· != '\n') ch) = true :=
              fun ch hch => List.mem_takeWhile_imp (p := (· != '\n')) hch
            have htake : (pass1Go false rest).takeWhile (· != '\n') =
                rest.takeWhile (· != '\n') := by
              rw [pass1GoFalseDecomp rest]
              cases hd : rest.dropWhile (· != '\n') with
              | nil =>
                have := takeWhileAppendAll hall ([] : List Char)
                simpa using this
              | cons d y =>
                have hd' : (d != '\n') = false := by
                  simpa using dropWhileHeadFalse (p := (· != '\n')) hd
                rw [takeWhileAppendAll hall, List.takeWhile_cons, hd']
                simp
            rw [htake, ← hashGoSkipDrop, ← hashGoSkipDrop]
            exact List.Sublist.cons₂ _ (ih rest false hrest)
          · have hnh : (true && c == '#') = false := by
              simp [beq_eq_false_iff_ne.mpr hc]
            rw [hashLinesGoOther true _ hnh, hashLinesGoOther true _ hnh]
            exact ih rest (c == '\n') hrest
        | some r =>
          obtain ⟨g1, g2, rest3⟩ := r
          rw [pass1GoMatch hm]
          obtain ⟨c', run, rest2, hs, hg1, hcL, hrunNe, hrunAll, hg2eq, hr3eq⟩ :=
            tryMatch1Parts hm
          have hcc : c' = c := by
            injection hs with h1 _
            exact h1.symm
          rw [hcc] at hcL hg1
          have hrest' : rest = run ++ ':' :: rest2 := by
            injection hs with _ h2
          have h3len : rest3.length ≤ n := by
            have hlt := tryMatch1Length hm
            simp only [List.length_cons] at hlt h
            omega
          have hg2sp : ∀ ch ∈ g2, isJsSpace ch = true := by
            intro ch hch
            rw [hg2eq] at hch
            exact List.mem_takeWhile_imp hch
          have hg1nh : ∀ ch ∈ g1, (ch == '#') = false := by
            intro ch hch
            rw [hg1] at hch
            rcases List.mem_cons.mp hch with h1 | h1
            · subst h1
              exact letterNotHash hcL
            · exact classNotHash (hrunAll _ h1)
          have hg2nh : ∀ ch ∈ g2, (ch == '#') = false :=
            fun ch hch => spaceNotHash (hg2sp ch hch)
          have hanh : ∀ ch ∈ (c :: (run ++ ':' :: g2)), (ch == '#') = false := by
            intro ch hch
            rcases List.mem_cons.mp hch with h1 | h1
            · subst h1
              exact letterNotHash hcL
            · rcases List.mem_append.mp h1 with h2 | h2
              · exact classNotHash (hrunAll _ h2)
              · rcases List.mem_cons.mp h2 with h3 | h3
                · subst h3
                  decide
                · exact hg2nh _ h3
          have hsplit : g2 ++ rest3 = rest2 := by
            rw [hg2eq, hr3eq]
            exact List.takeWhile_append_dropWhile _ _
          have hdecomp : c :: rest = (c :: (run ++ ':' :: g2)) ++ rest3 := by
            rw [hrest', ← hsplit]
            simp
          have hEndA : endFlag true (c :: (run ++ ':' :: g2)) = endFlag false g2 := by
            rw [endFlagCons, show run ++ ':' :: g2 = (run ++ [':']) ++ g2 by simp,
              endFlagAppend, endFlagConcatColon]
          have hLHS : hashLinesGo true (c :: rest) = hashLinesGo (endFlag false g2) rest3 := by
            rw [hdecomp, hashGoAbsorb _ true _ hanh, hEndA]
          rw [hLHS, hashLinesGoHash, ← hashGoSkipDrop,
            hashLinesGoOther false _ (by simp),
            show (('#' : Char) == '\n') = false from by decide,
            hashLinesGoOther false _ (by simp),
            show ((' ' : Char) == '\n') = false from by decide,
            hashGoAbsorb (g1 ++ g2) false _ (by
              intro ch hch
              rcases List.mem_append.mp hch with h1 | h1
              · exact hg1nh _ h1
              · exact hg2nh _ h1),
            endFlagAppend false g1 g2]
          by_cases hg2nil : g2 = []
          · subst hg2nil
            refine List.Sublist.cons _ ?_
            rw [show resumeFlag ([] : List Char) = false from by decide]
            exact (ih rest3 false h3len).trans (hashGoFalseLift _ _)
          · obtain ⟨d, y, rfl⟩ := List.exists_cons_of_ne_nil hg2nil
            refine List.Sublist.cons _ ?_
            rw [endFlagConsIndep (endFlag false g1) false d y, resumeFlagEqEndFlag]
            exact ih rest3 (endFlag false (d :: y)) h3len

theorem pass2Preserve :
    ∀ (n : Nat) (s : List Char) (flag : Bool), s.length ≤ n →
      List.Sublist (hashLinesGo flag s) (hashLinesGo flag (pass2Go flag s)) := by
  intro n
  induction n with
  | zero =>
    intro s flag h
    have hs : s = [] := List.length_eq_zero.mp (Nat.le_antisymm h (Nat.zero_le _))
    subst hs
    rw [pass2GoNil]
  | succ n ih =>
    intro s flag h
    cases s with
    | nil => rw [pass2GoNil]
    | cons c rest =>
      have hrest : rest.length ≤ n := by simpa using h
      cases flag with
      | false =>
        rw [pass2GoFalse, hashLinesGoOther false _ (by simp),
          hashLinesGoOther false _ (by simp)]
        exact ih rest (c == '\n') hrest
      | true =>
        cases hm : tryMatch2 (c :: rest) with
        | none =>
          rw [pass2GoNoMatch hm]
          by_cases hc : c = '#'
          · subst hc
            rw [show (('#' : Char) == '\n') = false from by decide]
            rw [hashLinesGoHash, hashLinesGoHash]
            have hall : ∀ ch ∈ rest.takeWhile (· != '\n'), ((· != '\n') ch) = true :=
              fun ch hch => List.mem_takeWhile_imp (p := (· != '\n')) hch
            have htake : (pass2Go false rest).takeWhile (· != '\n') =
                rest.takeWhile (· != '\n') := by
              rw [pass2GoFalseDecomp rest]
              cases hd : rest.dropWhile (· != '\n') with
              | nil =>
                have := takeWhileAppendAll hall ([] : List Char)
                simpa using this
              | cons d y =>
                have hd' : (d != '\n') = false := by
                  simpa using dropWhileHeadFalse (p := (· != '\n')) hd
                rw [takeWhileAppendAll hall, List.takeWhile_cons, hd']
                simp
            rw [htake, ← hashGoSkipDrop, ← hashGoSkipDrop]
            exact List.Sublist.cons₂ _ (ih rest false hrest)
          · have hnh : (true && c == '#') = false := by
              simp [beq_eq_false_iff_ne.mpr hc]
            rw [hashLinesGoOther true _ hnh, hashLinesGoOther true _ hnh]
            exact ih rest (c == '\n') hrest
        | some r =>
          obtain ⟨g1, rest2⟩ := r
          rw [pass2GoMatch hm]
          obtain ⟨c', run, hs, hg1, hcL, hrunNe, hrunAll, hdig⟩ := tryMatch2Parts hm
          have hcc : c' = c := by
            injection hs with h1 _
            exact h1.symm
          rw [hcc] at hcL hg1
          have hrest' : rest = run ++ ':' :: rest2 := by
            injection hs with _ h2
          have h2len : rest2.length ≤ n := by
            have hlt := tryMatch2Length hm
            simp only [List.length_cons] at hlt h
            omega
          have hg1nh : ∀ ch ∈ g1, (ch == '#') = false := by
            intro ch hch
            rw [hg1] at hch
            rcases List.mem_cons.mp hch with h1 | h1
            · subst h1
              exact letterNotHash hcL
            · exact classNotHash (hrunAll _ h1)
          have hanh : ∀ ch ∈ (c :: (run ++ [':'])), (ch == '#') = false := by
            intro ch hch
            rcases List.mem_cons.mp hch with h1 | h1
            · subst h1
              exact letterNotHash hcL
            · rcases List.mem_append.mp h1 with h2 | h2
              · exact classNotHash (hrunAll _ h2)
              · rcases List.mem_cons.mp h2 with h3 | h3
                · subst h3
                  decide
                · simp at h3
          have hdecomp : c :: rest = (c :: (run ++ [':'])) ++ rest2 := by
            rw [hrest']
            simp
          have hEndA : endFlag true (c :: (run ++ [':'])) = false := by
            rw [endFlagCons, endFlagConcatColon]
          have hLHS : hashLinesGo true (c :: rest) = hashLinesGo false rest2 := by
            rw [hdecomp, hashGoAbsorb _ true _ hanh, hEndA]
          rw [hLHS, hashLinesGoHash, ← hashGoSkipDrop,
            hashLinesGoOther false _ (by simp),
            show (('#' : Char) == '\n') = false from by decide,
            hashLinesGoOther false _ (by simp),
            show (('#' : Char) == '\n') = false from by decide,
            hashLinesGoOther false _ (by simp),
            show ((' ' : Char) == '\n') = false from by decide,
            hashGoAbsorb g1 false _ hg1nh]
          refine List.Sublist.cons _ ?_
          exact (ih rest2 false h2len).trans (hashGoFalseLift _ _)

/-- C7 counterexample: for the input text
`"Xy\nPq\nRs: e:\n:• \nHh: z"` the first formatter run promotes the final
line `"Hh: z"` to the heading line `"## Hh z"` (it appears among the heading
lines of the first run's output but not among those of the raw input), yet
the second run's output no longer contains that heading line: the top-level
pass rewrites `"Rs e\n:"`, leaving the bullet glyph at a line start, and the
bullet pass then consumes the newline before `"## Hh z"`, merging the
promoted heading into a list item (`"* ## Hh z"`).  Running the formatter a
second time on its own output therefore DOES alter heading structure already
promoted by the first run. -/
theorem formatTwiceAltersPromotedHeading :
    "## Hh z".data ∈ hashLines (transformStr "Xy\nPq\nRs: e:\n:• \nHh: z").data ∧
    "## Hh z".data ∉ hashLines "Xy\nPq\nRs: e:\n:• \nHh: z".data ∧
    "## Hh z".data ∉
      hashLines (transformStr (transformStr "Xy\nPq\nRs: e:\n:• \nHh: z")).data := by
  refine ⟨by decide, by decide, by decide⟩

/-- C7 (amended): lines already converted to headings (lines starting with
`#`) are never matched again by either promotion pass — applying the
top-level pass followed by the sub-section pass preserves every `#`-starting
line verbatim (the heading lines of the input form a sublist of the heading
lines of the output), so no nested or runaway re-promotion of existing
headings occurs.  A second full formatter run can nevertheless alter
promoted heading structure, but only through the bullet-normalisation pass,
as the counterexample shows. -/
theorem promotionPassesPreserveHeadings (s : List Char) :
    List.Sublist (hashLines s) (hashLines (pass2Go true (pass1Go true s))) := by
  unfold hashLines
  exact (pass1Preserve s.length s true (Nat.le_refl _)).trans
    (pass2Preserve (pass1Go true s).length (pass1Go true s) true (Nat.le_refl _))

end GeminiSearch
